import Mathlib

/-!
Shallow embedding of the message-processing pipeline of the
TwitchAIInteraction repository (src/App.py and
src/TwitchOpenAIElevenLabsLink.py), together with proofs settling the
specification claims.

Python strings are modelled as `String` (logically `List Char`);
character classes (`\d`, `\s`) and case folding are modelled at the
ASCII level, which covers every string the code and spec reason about.
Regex scanning (`re.findall` / `re.sub`) is modelled as a left-to-right
scan that, at each position, either consumes a match (resuming after
its end) or copies one character; this is exactly the semantics of
Python's `re` for the patterns used by the code (alternations of
literal prefixes followed by greedy digit/whitespace runs, which never
backtrack into a successful match).
-/

/-- Python `\d` on ASCII input: the characters 0-9 (App.py patterns use
`\d` runs after each cheer-emote name). -/
def isPyDigit (c : Char) : Bool := 48 ≤ c.toNat && c.toNat ≤ 57

/-- Python `\s` on ASCII input: space, tab, newline, carriage return,
vertical tab, form feed (used by the sanitizer pattern `cheer\d+\s+`
in `filter_message`, App.py line 206). -/
def isPySpace (c : Char) : Bool :=
  c == ' ' || c == '\t' || c == '\n' || c == '\r' || c == '\x0b' || c == '\x0c'

/-- Case-insensitive character comparison, modelling `re.IGNORECASE`
for ASCII letters. -/
def lowEq (a b : Char) : Bool := a.toLower == b.toLower

/-- `ciStarts w s` : the literal `w` matches (case-insensitively) at the
start of `s`; models matching an escaped literal under `re.IGNORECASE`. -/
def ciStarts : List Char → List Char → Bool
  | [], _ => true
  | _ :: _, [] => false
  | a :: w, b :: s => lowEq a b && ciStarts w s

/-- Length of the greedy digit run at the head of `s` (`\d+` is greedy,
and since digits and the following character class are disjoint in every
pattern of the code, the greedy run is what the regex engine consumes). -/
def countDigits (s : List Char) : Nat := (s.takeWhile isPyDigit).length

/-- Length of the greedy whitespace run at the head of `s` (`\s+`). -/
def countSpaces (s : List Char) : Nat := (s.takeWhile isPySpace).length

/-- Numeric value of the digit run at the head of `s`; models Python
`int()` applied to a matched digit run. -/
def digitsVal (s : List Char) : Nat :=
  (s.takeWhile isPyDigit).foldl (fun a c => 10 * a + (c.toNat - 48)) 0

/-- `int(re.search(r'\d+', m).group())` : the value of the FIRST digit
run occurring anywhere in `m` (App.py line 290). -/
def firstNum (s : List Char) : Nat :=
  digitsVal (s.dropWhile (fun c => !(isPyDigit c)))

/-- Python `str.strip()` on ASCII input: drop leading and trailing
whitespace. -/
def stripL (s : List Char) : List Char :=
  ((s.dropWhile isPySpace).reverse.dropWhile isPySpace).reverse

/-- `String` wrapper for `stripL`. -/
def stripPy (s : String) : String := ⟨stripL s.data⟩

/-!  Generic regex scan.  `m s` returns the length of the match at the
head of `s` (if any); the scan replaces each match of length `n` by
`repl n` and copies unmatched characters, exactly like `re.sub`'s
left-to-right non-overlapping scan.  The recursion is driven by a fuel
argument (instantiated with `s.length`, which suffices because every
step consumes at least one character); in the match branch the matchers
used in this file always return `n ≥ 1`, so `rest.drop (n - 1)`
is the suffix of the input starting right after the match. -/
def scanF (m : List Char → Option Nat) (repl : Nat → List Char) :
    Nat → List Char → List Char
  | 0, s => s
  | _ + 1, [] => []
  | f + 1, c :: rest =>
    match m (c :: rest) with
    | some n => repl n ++ scanF m repl f (rest.drop (n - 1))
    | none => c :: scanF m repl f rest

/-- Generic `re.findall` for patterns whose single group is the whole
match: collect the matched substrings of the same scan. -/
def findF (m : List Char → Option Nat) : Nat → List Char → List (List Char)
  | 0, _ => []
  | _ + 1, [] => []
  | f + 1, c :: rest =>
    match m (c :: rest) with
    | some n => (c :: rest).take n :: findF m f (rest.drop (n - 1))
    | none => findF m f rest

/-!  The sanitizer's residual cheer pattern `cheer\d+\s+`
(App.py line 206, TwitchOpenAIElevenLabsLink.py line 92). -/

/-- Length of the match of `cheer\d+\s+` (case-insensitive) at the head
of `s`: the literal `cheer`, then at least one digit (greedy), then at
least one whitespace character (greedy).  `none` when any part is
missing (backtracking cannot help: after the maximal digit run the next
character is not a digit, so shortening the run only meets a digit,
never whitespace). -/
def cheerTokLen (s : List Char) : Option Nat :=
  if ciStarts ("cheer".data) s then
    let d := countDigits (s.drop 5)
    if d = 0 then none
    else
      let w := countSpaces (s.drop (5 + d))
      if w = 0 then none else some (5 + d + w)
  else none

/-- `re.sub(r'cheer\d+\s+', '', text, flags=re.I)` on the character
list. -/
def cheerSubL (s : List Char) : List Char :=
  scanF cheerTokLen (fun _ => []) s.length s

/-- `re.sub(r'cheer\d+\s+', '', text, flags=re.I)` (first line of
`filter_message`). -/
def cheerSub (s : String) : String := ⟨cheerSubL s.data⟩

/-!  Banned-word masking: `re.compile(re.escape(word), re.IGNORECASE)`
then `pattern.sub('*' * len(word), text)` (App.py lines 208-210). -/

/-- Match of the escaped literal `w` (case-insensitive) at the head of
`s`.  An empty word never matches here, reproducing Python's behaviour
for `word = ""`: every replacement is also empty, so the sub is the
identity. -/
def maskLen (w : List Char) (s : List Char) : Option Nat :=
  if !w.isEmpty && ciStarts w s then some w.length else none

/-- The masking scan at explicit fuel (fuel `s.length` gives
`maskWordL`). -/
def maskScan (w : List Char) (f : Nat) (s : List Char) : List Char :=
  scanF (maskLen w) (fun n => List.replicate n '*') f s

/-- `pattern.sub('*' * len(word), text)` for one banned word. -/
def maskWordL (s w : List Char) : List Char := maskScan w s.length s

/-- `String` wrapper for `maskWordL`. -/
def maskWord (s w : String) : String := ⟨maskWordL s.data w.data⟩

/-- `filter_message(text, banned_words)` (App.py lines 193-212): remove
residual `cheer\d+\s+` tokens, mask each banned word in list order with
an equal-length run of `'*'`, then truncate to 130 characters
(`text[:130]`). -/
def filter_message (text : String) (banned_words : List String) : String :=
  let t1 := cheerSub text
  let t2 := banned_words.foldl (fun t w => maskWord t w) t1
  ⟨t2.data.take 130⟩

/-!  The cheer-emote pattern.  App.py lines 22-28 (`CHEER_PATTERN`) and
TwitchOpenAIElevenLabsLink.py lines 149-155 (`cheer_pattern`) are
case-insensitive alternations of literal emote names each followed by a
digit run.  Both list the same 26 names in the same order; every
alternative uses `\d+` except the last one in App.py, which reads
`Shamrock\d` (exactly one digit), where the other draft has
`Shamrock\d+`.  An entry is `(name, plus)` with `plus = true` for
`\d+` and `plus = false` for a single `\d`. -/

/-- The 25 alternatives shared verbatim by both drafts (all `\d+`),
in alternation order. -/
def commonEmotes : List (List Char) :=
  ["BibleThump".data, "cheerwhal".data, "Corgo".data, "uni".data,
   "ShowLove".data, "Party".data, "SeemsGood".data, "Pride".data,
   "Kappa".data, "cheer".data, "FrankerZ".data, "HeyGuys".data,
   "DansGame".data, "EleGiggle".data, "TriHard".data, "Kreygasm".data,
   "4Head".data, "SwiftRage".data, "NotLikeThis".data, "FailFish".data,
   "VoHiYo".data, "PJSalt".data, "MrDestructoid".data, "bday".data,
   "RIPCheer".data]

/-- Match length of one alternative `name\d+` (or `name\d`) at the head
of `s`: the literal name (case-insensitive) followed by at least one
digit; `\d+` consumes the greedy digit run, `\d` exactly one digit. -/
def entryLen (p : List Char) (plus : Bool) (s : List Char) : Option Nat :=
  if ciStarts p s then
    let d := countDigits (s.drop p.length)
    if d = 0 then none
    else if plus then some (p.length + d) else some (p.length + 1)
  else none

/-- Regex alternation: try the alternatives in order, first success
wins (Python `re` alternation semantics). -/
def matchVocab : List (List Char × Bool) → List Char → Option Nat
  | [], _ => none
  | (p, plus) :: v, s =>
    match entryLen p plus s with
    | some n => some n
    | none => matchVocab v s

/-- `CHEER_PATTERN` of src/App.py: the shared alternatives, then
`Shamrock\d` (single digit — as written on App.py line 27). -/
def vocabApp : List (List Char × Bool) :=
  commonEmotes.map (fun p => (p, true)) ++ [("Shamrock".data, false)]

/-- `cheer_pattern` of src/TwitchOpenAIElevenLabsLink.py: the shared
alternatives, then `Shamrock\d+`. -/
def vocabLink : List (List Char × Bool) :=
  commonEmotes.map (fun p => (p, true)) ++ [("Shamrock".data, true)]

/-- `pattern.findall(text)`: the pattern's single group spans the whole
match, so `findall` returns the matched substrings. -/
def findallOf (v : List (List Char × Bool)) (t : String) : List (List Char) :=
  findF (matchVocab v) t.data.length t.data

/-- `pattern.sub('', text)`: the text with every match removed. -/
def subOf (v : List (List Char × Bool)) (t : String) : List Char :=
  scanF (matchVocab v) (fun _ => []) t.data.length t.data

/-- The Cheer Extractor (App.py `event_message` lines 283-295 /
TwitchOpenAIElevenLabsLink.py lines 144-165): if the pattern matches
anywhere, `total_bits` is the sum over matches of the first digit run
in each matched substring, and `cleaned_text` is the text with every
match removed and then `strip()`-ped; with no match the text is
returned unchanged (the `strip()` sits inside the `if cheered_matches:`
branch) and `total_bits = 0`. -/
def extractOf (v : List (List Char × Bool)) (t : String) : Nat × String :=
  if (findallOf v t).isEmpty then (0, t)
  else (((findallOf v t).map firstNum).sum, stripPy ⟨subOf v t⟩)

/-- Cheer extraction as implemented in src/App.py. -/
def extractApp (t : String) : Nat × String := extractOf vocabApp t

/-- Cheer extraction as implemented in src/TwitchOpenAIElevenLabsLink.py. -/
def extractLink (t : String) : Nat × String := extractOf vocabLink t

/-!  Response Throttle (App.py lines 304-307): timestamps are modelled
as integers (`time.time()` values at integral seconds; the claims
quantify over integral gaps). -/

/-- `if current_time - self.last_ai_command_time > TIMEOUT_DURATION:`
followed by `self.last_ai_command_time = current_time` on admission;
returns (admitted, new last-dispatch timestamp). -/
def tryAdmit (now last cooldown : Int) : Bool × Int :=
  if now - last > cooldown then (true, now) else (false, last)

/-- The configuration fields the Chat Event Handler reads
(`BIT_THRESHOLD`, `TIMEOUT_DURATION`, `BANNED_WORDS`). -/
structure BotConfig where
  bit_threshold : Nat
  timeout_duration : Int
  banned_words : List String

/-- The message-processing part of App.py's `event_message`
(lines 283-321), for a non-echo message: extract cheered bits, apply
the throttle, and when admitted filter `"{author}: {processed}"` and
trigger generation iff `cheered_bits >= BIT_THRESHOLD`.  Returns the
new `last_ai_command_time` and `some filtered` when a generation cycle
is triggered with input `filtered`, `none` otherwise.  (Echo discard
and optional chat logging do not affect this result.) -/
def event_message (author content : String) (now last : Int)
    (cfg : BotConfig) : Int × Option String :=
  if now - last > cfg.timeout_duration then
    if (extractApp content).1 ≥ cfg.bit_threshold then
      (now,
        some (filter_message (author ++ ": " ++ (extractApp content).2)
          cfg.banned_words))
    else (now, none)
  else (last, none)

/-!  Response Orchestrator (App.py lines 341-425).  The outcome of the
text-generation collaborator call is a value: `Except.error e` models a
raised `OpenAIError` (or any other exception), `Except.ok s` models a
successful response with message content `s`. -/

/-- `generate_twitch_channel_talk` (App.py lines 390-425): on success
return `content.strip()[:360]`; every exception is caught and the
function returns `""`. -/
def generate_twitch_channel_talk (api : Except String String) : String :=
  match api with
  | Except.ok content => ⟨(stripL content.data).take 360⟩
  | Except.error _ => ""

/-- Outcome of one generation cycle: speech synthesis invoked with the
given text, or skipped because the reply was empty. -/
inductive CycleOutcome where
  | spoken : String → CycleOutcome
  | skippedEmpty : CycleOutcome
deriving DecidableEq

/-- `generate_and_send_response` (App.py lines 341-359): obtain the
reply; `if response_text:` send it to synthesis, else skip.  Errors of
the collaborators never escape (the generation call catches its own,
returning `""`, and this level catches the rest). -/
def generate_and_send_response (api : Except String String) : CycleOutcome :=
  let t := generate_twitch_channel_talk api
  if t = "" then CycleOutcome.skippedEmpty else CycleOutcome.spoken t

/-!  Decidable text predicates used to state claims. -/

/-- `w` occurs case-insensitively as a substring of `s`. -/
def ciOccursIn (w : List Char) : List Char → Bool
  | [] => ciStarts w []
  | c :: r => ciStarts w (c :: r) || ciOccursIn w r

/-- No position of `s` starts a `cheer\d+\s+` match (the text contains
no removable residual cheer token). -/
def noCheerTok : List Char → Bool
  | [] => true
  | c :: r => (cheerTokLen (c :: r)).isNone && noCheerTok r

/-- The head of `s` is a (case-insensitive) `Shamrock` immediately
followed by two or more digits — the only shape on which the two
drafts' patterns (`Shamrock\d` vs `Shamrock\d+`) disagree. -/
def shamBad (s : List Char) : Bool :=
  ciStarts ("Shamrock".data) s && decide (2 ≤ countDigits (s.drop 8))

/-- No position of `s` is a `Shamrock` followed by two or more digits. -/
def okSham : List Char → Bool
  | [] => true
  | c :: r => !shamBad (c :: r) && okSham r

/-!  ## Helper lemmas -/

theorem toLower_eq_star {c : Char} (h : c.toLower = '*') : c = '*' := by
  unfold Char.toLower at h
  simp only [] at h
  by_cases hn : c.toNat ≥ 65 ∧ c.toNat ≤ 90
  · rw [if_pos hn] at h
    exfalso
    have h2 := congrArg Char.toNat h
    rw [Char.ofNat] at h2
    rw [dif_pos (Or.inl (by omega))] at h2
    unfold Char.ofNatAux Char.toNat at h2
    simp only [UInt32.toNat, BitVec.toNat_ofNatLt] at h2
    have h3 : ('*').val.toBitVec.toNat = 42 := by decide
    rw [h3] at h2
    unfold Char.toNat UInt32.toNat at hn
    omega
  · rw [if_neg hn] at h
    exact h

theorem ciStarts_length : ∀ {w s : List Char}, ciStarts w s = true → w.length ≤ s.length
  | [], _, _ => Nat.zero_le _
  | _ :: _, [], h => by simp [ciStarts] at h
  | a :: w, b :: s, h => by
    simp only [ciStarts, Bool.and_eq_true] at h
    exact Nat.succ_le_succ (ciStarts_length h.2)

theorem ciStarts_get : ∀ {w u : List Char}, ciStarts w u = true →
    ∀ j, j < w.length →
      ∃ a b, w[j]? = some a ∧ u[j]? = some b ∧ lowEq a b = true
  | [], _, _, _, hj => absurd hj (by simp)
  | _ :: _, [], h, _, _ => by simp [ciStarts] at h
  | a :: w, b :: u, h, 0, _ => by
    simp only [ciStarts, Bool.and_eq_true] at h
    exact ⟨a, b, by simp, by simp, h.1⟩
  | a :: w, b :: u, h, j + 1, hj => by
    simp only [ciStarts, Bool.and_eq_true] at h
    simpa using ciStarts_get h.2 j (Nat.lt_of_succ_lt_succ hj)

theorem ciStarts_of_get : ∀ (w u : List Char),
    (∀ j, j < w.length →
      ∃ a b, w[j]? = some a ∧ u[j]? = some b ∧ lowEq a b = true) →
    ciStarts w u = true := by
  intro w
  induction w with
  | nil => intro u _; rfl
  | cons a w ih =>
    intro u h
    cases u with
    | nil =>
      obtain ⟨x, y, _, hy, _⟩ := h 0 (by simp)
      simp at hy
    | cons b u =>
      obtain ⟨x, y, hx, hy, hxy⟩ := h 0 (by simp)
      simp only [List.getElem?_cons_zero, Option.some.injEq] at hx hy
      simp only [ciStarts, Bool.and_eq_true]
      refine ⟨by rw [hx, hy]; exact hxy, ih u ?_⟩
      intro j hj
      obtain ⟨p, q, hp, hq, hpq⟩ := h (j + 1) (by simpa using hj)
      exact ⟨p, q, by simpa using hp, by simpa using hq, hpq⟩

theorem scanF_of_none {m : List Char → Option Nat} {r : Nat → List Char} :
    ∀ (f : Nat) (s : List Char), s.length ≤ f →
      (∀ i, m (s.drop i) = none) → scanF m r f s = s := by
  intro f
  induction f with
  | zero => intro s _ _; rfl
  | succ f ih =>
    intro s hs h
    cases s with
    | nil => rfl
    | cons c rest =>
      have h0 := h 0
      simp only [List.drop_zero] at h0
      simp only [scanF, h0]
      congr 1
      exact ih rest (by simpa using Nat.le_of_succ_le_succ hs)
        (fun i => by simpa using h (i + 1))

theorem scanF_congr {mA mB : List Char → Option Nat} {r : Nat → List Char} :
    ∀ (f : Nat) (s : List Char),
      (∀ i, mA (s.drop i) = mB (s.drop i)) →
      scanF mA r f s = scanF mB r f s := by
  intro f
  induction f with
  | zero => intro s _; rfl
  | succ f ih =>
    intro s h
    cases s with
    | nil => rfl
    | cons c rest =>
      have h0 := h 0
      simp only [List.drop_zero] at h0
      simp only [scanF, ← h0]
      cases hm : mA (c :: rest) with
      | none =>
        simp only []
        congr 1
        exact ih rest (fun i => by simpa using h (i + 1))
      | some n =>
        simp only []
        congr 1
        refine ih (rest.drop (n - 1)) (fun i => ?_)
        have hd : (rest.drop (n - 1)).drop i = (c :: rest).drop (n - 1 + i + 1) := by
          simp [List.drop_drop]
        rw [hd]
        exact h (n - 1 + i + 1)

theorem maskLen_some {w s : List Char} {n : Nat} (h : maskLen w s = some n) :
    n = w.length ∧ w.isEmpty = false ∧ ciStarts w s = true := by
  unfold maskLen at h
  split at h
  · rename_i hc
    simp only [Bool.and_eq_true, Bool.not_eq_true'] at hc
    exact ⟨(Option.some.inj h).symm, hc.1, hc.2⟩
  · exact absurd h (by simp)

theorem maskScan_len (w : List Char) :
    ∀ (f : Nat) (s : List Char), s.length ≤ f →
      (maskScan w f s).length = s.length := by
  intro f
  induction f with
  | zero =>
    intro s hs
    have : s = [] := List.eq_nil_of_length_eq_zero (Nat.le_zero.mp hs)
    subst this
    rfl
  | succ f ih =>
    intro s hs
    cases s with
    | nil => rfl
    | cons c rest =>
      unfold maskScan scanF
      cases hm : maskLen w (c :: rest) with
      | none =>
        simp only [List.length_cons]
        have := ih rest (by simpa using Nat.le_of_succ_le_succ hs)
        unfold maskScan at this
        rw [this]
      | some n =>
        obtain ⟨hn, hne, hci⟩ := maskLen_some hm
        have hw1 : 1 ≤ w.length := by
          cases w with
          | nil => simp at hne
          | cons _ _ => simp
        have hwlen : w.length ≤ rest.length + 1 := by
          simpa using ciStarts_length hci
        have hrec := ih (rest.drop (n - 1)) (by
          simp only [List.length_drop]
          simp only [List.length_cons] at hs
          omega)
        unfold maskScan at hrec
        simp only [List.length_append, List.length_replicate, hrec,
          List.length_drop, List.length_cons]
        omega

theorem maskScan_pointwise (w : List Char) :
    ∀ (f : Nat) (s : List Char) (k : Nat), s.length ≤ f →
      (maskScan w f s)[k]? = some '*' ∨ (maskScan w f s)[k]? = s[k]? := by
  intro f
  induction f with
  | zero => intro s k _; exact Or.inr rfl
  | succ f ih =>
    intro s k hs
    cases s with
    | nil => exact Or.inr rfl
    | cons c rest =>
      unfold maskScan scanF
      cases hm : maskLen w (c :: rest) with
      | none =>
        cases k with
        | zero => exact Or.inr (by simp)
        | succ j =>
          have := ih rest j (by simpa using Nat.le_of_succ_le_succ hs)
          unfold maskScan at this
          simpa using this
      | some n =>
        obtain ⟨hn, hne, hci⟩ := maskLen_some hm
        have hw1 : 1 ≤ w.length := by
          cases w with
          | nil => simp at hne
          | cons _ _ => simp
        by_cases hk : k < n
        · left
          rw [List.getElem?_append_left (by simpa using hk)]
          simp [hk]
        · have hk' : n ≤ k := Nat.le_of_not_lt hk
          rw [List.getElem?_append_right (by simpa using hk')]
          simp only [List.length_replicate]
          have hrec := ih (rest.drop (n - 1)) (k - n) (by
            simp only [List.length_drop]
            have : rest.length ≤ f := by simpa using Nat.le_of_succ_le_succ hs
            omega)
          unfold maskScan at hrec
          rcases hrec with h | h
          · exact Or.inl h
          · right
            rw [h, List.getElem?_drop]
            have hkk : n - 1 + (k - n) = k - 1 := by omega
            rw [hkk]
            have hk1 : k = (k - 1) + 1 := by omega
            rw [hk1]
            simp

theorem maskScan_covers (w : List Char) (hw : w.isEmpty = false) :
    ∀ (f : Nat) (s : List Char) (i : Nat), s.length ≤ f →
      ciStarts w (s.drop i) = true →
      (maskScan w f s)[i]? = some '*' := by
  have hwc : ∀ u : List Char, ciStarts w [] = true → False := by
    intro _ hci
    cases w with
    | nil => simp at hw
    | cons a w' => simp [ciStarts] at hci
  intro f
  induction f with
  | zero =>
    intro s i hs hci
    have : s = [] := List.eq_nil_of_length_eq_zero (Nat.le_zero.mp hs)
    subst this
    rw [List.drop_nil] at hci
    exact absurd hci (by intro hc; exact hwc [] hc)
  | succ f ih =>
    intro s i hs hci
    cases s with
    | nil =>
      rw [List.drop_nil] at hci
      exact absurd hci (by intro hc; exact hwc [] hc)
    | cons c rest =>
      unfold maskScan scanF
      cases hm : maskLen w (c :: rest) with
      | some n =>
        obtain ⟨hn, hne, hciw⟩ := maskLen_some hm
        have hw1 : 1 ≤ w.length := by
          cases w with
          | nil => simp at hne
          | cons _ _ => simp
        by_cases hi : i < n
        · rw [List.getElem?_append_left (by simpa using hi)]
          simp [hi]
        · have hi' : n ≤ i := Nat.le_of_not_lt hi
          rw [List.getElem?_append_right (by simpa using hi')]
          simp only [List.length_replicate]
          have hdrop : (rest.drop (n - 1)).drop (i - n) = (c :: rest).drop i := by
            rw [List.drop_drop]
            have : n - 1 + (i - n) = i - 1 := by omega
            rw [this]
            have hi1 : i = (i - 1) + 1 := by omega
            rw [hi1]
            simp
          have := ih (rest.drop (n - 1)) (i - n) (by
            simp only [List.length_drop]
            have : rest.length ≤ f := by simpa using Nat.le_of_succ_le_succ hs
            omega) (by rw [hdrop]; exact hci)
          unfold maskScan at this
          exact this
      | none =>
        cases i with
        | zero =>
          exfalso
          rw [List.drop_zero] at hci
          unfold maskLen at hm
          rw [if_pos (by simp [hw, hci])] at hm
          exact absurd hm (by simp)
        | succ j =>
          have := ih rest j (by simpa using Nat.le_of_succ_le_succ hs)
            (by simpa using hci)
          unfold maskScan at this
          simpa using this

theorem ciOccursIn_iff {w : List Char} : ∀ {s : List Char},
    ciOccursIn w s = true ↔ ∃ i, ciStarts w (s.drop i) = true := by
  intro s
  induction s with
  | nil =>
    simp only [ciOccursIn, List.drop_nil]
    exact ⟨fun h => ⟨0, h⟩, fun ⟨_, h⟩ => h⟩
  | cons c r ih =>
    simp only [ciOccursIn, Bool.or_eq_true, ih]
    constructor
    · rintro (h | ⟨i, h⟩)
      · exact ⟨0, by simpa using h⟩
      · exact ⟨i + 1, by simpa using h⟩
    · rintro ⟨i, h⟩
      cases i with
      | zero => exact Or.inl (by simpa using h)
      | succ j => exact Or.inr ⟨j, by simpa using h⟩

/-- Masking a nonempty, asterisk-free banned word leaves no
case-insensitive occurrence of it in the output. -/
theorem maskWordL_no_occurrence {w s : List Char} (hw : w.isEmpty = false)
    (hstar : '*' ∉ w) :
    ciOccursIn w (maskWordL s w) = false := by
  by_contra hocc
  rw [Bool.not_eq_false, ciOccursIn_iff] at hocc
  obtain ⟨i, hci⟩ := hocc
  have hw1 : 0 < w.length := by
    cases w with
    | nil => simp at hw
    | cons _ _ => simp
  have hpt : ∀ j, j < w.length → (maskWordL s w)[i + j]? = s[i + j]? := by
    intro j hj
    obtain ⟨a, b, ha, hb, hab⟩ := ciStarts_get hci j hj
    rw [List.getElem?_drop] at hb
    have hbne : b ≠ '*' := by
      intro hbeq
      subst hbeq
      have halow : a.toLower = '*' := by
        have : a.toLower = ('*').toLower := by simpa [lowEq] using hab
        rw [this]
        decide
      exact hstar (toLower_eq_star halow ▸ List.getElem?_mem ha)
    rcases maskScan_pointwise w s.length s (i + j) (Nat.le_refl _) with h | h
    · exfalso
      unfold maskWordL at hb
      rw [h] at hb
      exact hbne (Option.some.inj hb).symm
    · unfold maskWordL
      exact h
  have hsi : ciStarts w (s.drop i) = true := by
    apply ciStarts_of_get
    intro j hj
    obtain ⟨a, b, ha, hb, hab⟩ := ciStarts_get hci j hj
    rw [List.getElem?_drop, hpt j hj] at hb
    exact ⟨a, b, ha, by rw [List.getElem?_drop]; exact hb, hab⟩
  have hcov := maskScan_covers w hw s.length s i (Nat.le_refl _) hsi
  obtain ⟨a, b, ha, hb, hab⟩ := ciStarts_get hci 0 hw1
  rw [List.getElem?_drop, hpt 0 hw1] at hb
  have hbs : (maskWordL s w)[i + 0]? = s[i + 0]? := hpt 0 hw1
  have hcov' : (maskWordL s w)[i + 0]? = some '*' := by
    unfold maskWordL
    simpa using hcov
  rw [hbs] at hcov'
  rw [hcov'] at hb
  have hbeq : b = '*' := (Option.some.inj hb).symm
  subst hbeq
  have halow : a.toLower = '*' := by
    have : a.toLower = ('*').toLower := by simpa [lowEq] using hab
    rw [this]
    decide
  exact hstar (toLower_eq_star halow ▸ List.getElem?_mem ha)

theorem matchVocab_append : ∀ (v u : List (List Char × Bool)) (s : List Char),
    matchVocab (v ++ u) s =
      match matchVocab v s with
      | some n => some n
      | none => matchVocab u s := by
  intro v
  induction v with
  | nil => intro u s; rfl
  | cons e v ih =>
    intro u s
    obtain ⟨p, plus⟩ := e
    simp only [List.cons_append, matchVocab]
    cases entryLen p plus s with
    | some n => rfl
    | none => simpa using ih u s

/-- The two drafts' patterns agree at every position that is not a
`Shamrock` followed by at least two digits. -/
theorem appLink_matchLen_eq {s : List Char} (h : shamBad s = false) :
    matchVocab vocabApp s = matchVocab vocabLink s := by
  unfold vocabApp vocabLink
  rw [matchVocab_append, matchVocab_append]
  cases hc : matchVocab (commonEmotes.map (fun p => (p, true))) s with
  | some n => rfl
  | none =>
    simp only []
    show matchVocab [("Shamrock".data, false)] s
       = matchVocab [("Shamrock".data, true)] s
    simp only [matchVocab]
    by_cases hp : ciStarts ("Shamrock".data) s = true
    · have hd : countDigits (s.drop 8) < 2 := by
        unfold shamBad at h
        rw [hp] at h
        simpa using h
      have h8 : ("Shamrock".data).length = 8 := by decide
      unfold entryLen
      rw [if_pos hp, if_pos hp, h8]
      have hd01 : countDigits (s.drop 8) = 0 ∨ countDigits (s.drop 8) = 1 := by omega
      rcases hd01 with h0 | h1
      · rw [h0]; simp
      · rw [h1]; simp
    · have hp' : ciStarts ("Shamrock".data) s = false := by
        simpa using hp
      unfold entryLen
      rw [if_neg (by simp [hp']), if_neg (by simp [hp'])]

theorem okSham_all : ∀ {s : List Char}, okSham s = true →
    ∀ i, shamBad (s.drop i) = false := by
  intro s
  induction s with
  | nil => intro _ i; rw [List.drop_nil]; decide
  | cons c r ih =>
    intro h i
    simp only [okSham, Bool.and_eq_true, Bool.not_eq_true'] at h
    cases i with
    | zero => simpa using h.1
    | succ j => simpa using ih h.2 j

theorem noCheerTok_all : ∀ {s : List Char}, noCheerTok s = true →
    ∀ i, cheerTokLen (s.drop i) = none := by
  intro s
  induction s with
  | nil => intro _ i; rw [List.drop_nil]; decide
  | cons c r ih =>
    intro h i
    simp only [noCheerTok, Bool.and_eq_true, Option.isNone_iff_eq_none] at h
    cases i with
    | zero => simpa using h.1
    | succ j => simpa using ih h.2 j

theorem findF_congr {mA mB : List Char → Option Nat} :
    ∀ (f : Nat) (s : List Char),
      (∀ i, mA (s.drop i) = mB (s.drop i)) →
      findF mA f s = findF mB f s := by
  intro f
  induction f with
  | zero => intro s _; rfl
  | succ f ih =>
    intro s h
    cases s with
    | nil => rfl
    | cons c rest =>
      have h0 := h 0
      simp only [List.drop_zero] at h0
      simp only [findF, ← h0]
      cases hm : mA (c :: rest) with
      | none =>
        simp only []
        exact ih rest (fun i => by simpa using h (i + 1))
      | some n =>
        simp only []
        congr 1
        refine ih (rest.drop (n - 1)) (fun i => ?_)
        have hd : (rest.drop (n - 1)).drop i = (c :: rest).drop (n - 1 + i + 1) := by
          simp [List.drop_drop]
        rw [hd]
        exact h (n - 1 + i + 1)

/-!  ## Shared facts about `filter_message` -/

theorem filterMessage_len (t : String) (B : List String) :
    (filter_message t B).data.length ≤ 130 := by
  show ((B.foldl (fun u w => maskWord u w) (cheerSub t)).data.take 130).length
      ≤ 130
  rw [List.length_take]
  exact Nat.min_le_left _ _

/-!  ## Claims -/

/-- C1 (code_bug evidence): the extractor takes the FIRST digit run of
each matched token, so the `4Head` emote is mis-parsed: `"4Head100"`
(a 100-bit cheer) yields `total_bits = 4` — the leading `4` of the
emote name — while the spec's sum-of-amounts reading requires 100.  On
tokens whose names contain no digit (such as `cheer100` and `Kappa50`)
the first digit run is the amount and the sum is as specified. -/
theorem cheer_bits_misparse_4Head :
    extractApp "4Head100" = (4, "") ∧ (extractApp "4Head100").1 ≠ 100
    ∧ extractApp "cheer100 Kappa50" = (150, "") :=
  ⟨by decide, by decide, by decide⟩

/-- C2 counterexample: on a match-free text the code returns the text
unchanged, NOT stripped — the `strip()` sits inside the
`if cheered_matches:` branch — so `cleaned_text` differs from
`text.strip()` on `" hello "`. -/
theorem extract_noMatch_noStrip_cex :
    (extractApp " hello ").2 ≠ stripPy " hello " := by decide

/-- C2 amended: for every text with zero cheer-pattern matches the
extractor returns `total_bits = 0` and the input text UNCHANGED (no
strip is applied on this path). -/
theorem extract_noMatch_id (t : String) (h : findallOf vocabApp t = []) :
    extractApp t = (0, t) := by
  unfold extractApp extractOf
  rw [h]
  rfl

/-- Witness for `extract_noMatch_id`. -/
theorem extract_noMatch_id_w :
    findallOf vocabApp "hello" = [] ∧ extractApp "hello" = (0, "hello") :=
  ⟨by decide, extract_noMatch_id "hello" (by decide)⟩

/-- C3: the throttle admits iff `now - last > cooldown`; on admission
the timestamp becomes `now`, on rejection it is unchanged; and with
`cooldown = 15`, after an admitted call at `now` a second call 10
seconds later is rejected while one 16 seconds later is admitted. -/
theorem tryAdmit_spec (now last cd : Int) :
    ((tryAdmit now last cd).1 = true ↔ now - last > cd)
    ∧ ((tryAdmit now last cd).1 = true → (tryAdmit now last cd).2 = now)
    ∧ ((tryAdmit now last cd).1 = false → (tryAdmit now last cd).2 = last)
    ∧ (now - last > 15 →
        (tryAdmit now last 15).1 = true
        ∧ (tryAdmit (now + 10) (tryAdmit now last 15).2 15).1 = false
        ∧ (tryAdmit (now + 16) (tryAdmit now last 15).2 15).1 = true) := by
  refine ⟨?_, ?_, ?_, ?_⟩
  · unfold tryAdmit
    by_cases h : now - last > cd <;> simp [h]
  · unfold tryAdmit
    by_cases h : now - last > cd <;> simp [h]
  · unfold tryAdmit
    by_cases h : now - last > cd <;> simp [h]
  · intro h15
    have hfst : tryAdmit now last 15 = (true, now) := by
      unfold tryAdmit
      rw [if_pos h15]
    rw [hfst]
    refine ⟨rfl, ?_, ?_⟩
    · show (tryAdmit (now + 10) now 15).1 = false
      unfold tryAdmit
      rw [if_neg (by omega)]
    · show (tryAdmit (now + 16) now 15).1 = true
      unfold tryAdmit
      rw [if_pos (by omega)]

/-- Witness for `tryAdmit_spec`. -/
theorem tryAdmit_spec_w :
    ((100 : Int) - 0 > 15)
    ∧ ((tryAdmit 100 0 15).1 = true
        ∧ (tryAdmit (100 + 10) (tryAdmit 100 0 15).2 15).1 = false
        ∧ (tryAdmit (100 + 16) (tryAdmit 100 0 15).2 15).1 = true) :=
  ⟨by decide, (tryAdmit_spec 100 0 15).2.2.2 (by decide)⟩

/-- C4: an admitted message with `total_bits` below the threshold takes
no generation action yet still consumes the throttle timestamp
(`last_ai_command_time` becomes `now`); and concretely, with
`bits_threshold = 20`, `"user1: cheer50 hello"` triggers generation
with sanitized input `"user1: hello"` while `"user1: cheer5 hello"`
triggers none but still resets the cooldown clock. -/
theorem event_message_threshold (author content : String) (now last : Int)
    (cfg : BotConfig)
    (hadm : now - last > cfg.timeout_duration)
    (hbits : (extractApp content).1 < cfg.bit_threshold) :
    event_message author content now last cfg = (now, none)
    ∧ event_message "user1" "cheer50 hello" 100 0 ⟨20, 15, []⟩
        = (100, some "user1: hello")
    ∧ event_message "user1" "cheer5 hello" 100 0 ⟨20, 15, []⟩
        = (100, none) := by
  refine ⟨?_, by decide, by decide⟩
  unfold event_message
  rw [if_pos hadm, if_neg (by omega)]

/-- Witness for `event_message_threshold`. -/
theorem event_message_threshold_w :
    ((100 : Int) - 0 > (15 : Int) ∧ (extractApp "hi").1 < 20)
    ∧ event_message "u" "hi" 100 0 ⟨20, 15, []⟩ = (100, none) :=
  ⟨⟨by decide, by decide⟩,
    (event_message_threshold "u" "hi" 100 0 ⟨20, 15, []⟩ (by decide)
      (by decide)).1⟩

/-- C5 counterexample: `sanitize` is NOT idempotent for every text —
removing `"cheer1 "` from `"cheecheer1 r5 x"` concatenates `"chee"`
with `"r5 x"`, creating the fresh token `"cheer5 "` which a second pass
removes (even with no banned words). -/
theorem filter_message_not_idem_cex :
    filter_message (filter_message "cheecheer1 r5 x" []) []
      ≠ filter_message "cheecheer1 r5 x" [] := by decide

/-- C5 amended: `sanitize` is idempotent on exactly the inputs whose
first-pass output is itself a fixed point of cheer-token removal and of
banned-word masking (in particular whenever the first pass leaves no
residual `cheer<digits><whitespace>` token and no banned-word
occurrence); truncation is always a no-op on a second pass since the
first pass's output has length ≤ 130. -/
theorem filter_message_idem_fixed (t : String) (B : List String)
    (h1 : cheerSub (filter_message t B) = filter_message t B)
    (h2 : B.foldl (fun u w => maskWord u w) (filter_message t B)
        = filter_message t B) :
    filter_message (filter_message t B) B = filter_message t B := by
  show (⟨(B.foldl (fun u w => maskWord u w)
      (cheerSub (filter_message t B))).data.take 130⟩ : String)
    = filter_message t B
  rw [h1, h2]
  rw [List.take_of_length_le (filterMessage_len t B)]

/-- Witness for `filter_message_idem_fixed`. -/
theorem filter_message_idem_fixed_w :
    (cheerSub (filter_message "a" []) = filter_message "a" []
      ∧ List.foldl (fun u w => maskWord u w) (filter_message "a" []) []
          = filter_message "a" [])
    ∧ filter_message (filter_message "a" []) [] = filter_message "a" [] :=
  ⟨⟨by decide, by decide⟩,
    filter_message_idem_fixed "a" [] (by decide) (by decide)⟩

/-- C6: for every text and every nonempty banned word containing no
mask character, masking replaces every (case-insensitive, substring)
occurrence with an equal-length run of `'*'`: the output has the same
length as the input and contains no case-insensitive occurrence of the
word; and for banned word `"foo"` and input `"foo bar"` the sanitizer
returns `"*** bar"`. -/
theorem maskWord_masks_all :
    (∀ (t w : String), w.data.isEmpty = false → '*' ∉ w.data →
      ciOccursIn w.data (maskWord t w).data = false
      ∧ (maskWord t w).length = t.length)
    ∧ filter_message "foo bar" ["foo"] = "*** bar" := by
  refine ⟨?_, by decide⟩
  intro t w hw hstar
  constructor
  · exact maskWordL_no_occurrence hw hstar
  · show (maskWordL t.data w.data).length = t.data.length
    unfold maskWordL
    exact maskScan_len w.data t.data.length t.data (Nat.le_refl _)

/-- Witness for `maskWord_masks_all`. -/
theorem maskWord_masks_all_w :
    (("foo" : String).data.isEmpty = false ∧ '*' ∉ ("foo" : String).data)
    ∧ (ciOccursIn ("foo" : String).data (maskWord "foo bar" "foo").data = false
        ∧ (maskWord "foo bar" "foo").length = ("foo bar" : String).length) :=
  ⟨⟨by decide, by decide⟩,
    maskWord_masks_all.1 "foo bar" "foo" (by decide) (by decide)⟩

set_option maxRecDepth 4000 in
/-- C7: the sanitizer's output never exceeds 130 characters, for any
input and banned-word set; and truncation is applied last, after
masking: a banned word straddling the 130-character boundary is masked
before the cut (128 `a`s followed by `"foo"` becomes 128 `a`s followed
by `"**"`, not an unmasked `"fo"`). -/
theorem filter_message_truncates :
    (∀ (t : String) (B : List String), (filter_message t B).length ≤ 130)
    ∧ filter_message ⟨List.replicate 128 'a' ++ "foo".data⟩ ["foo"]
      = ⟨List.replicate 128 'a' ++ "**".data⟩ := by
  refine ⟨?_, by decide⟩
  intro t B
  show (filter_message t B).data.length ≤ 130
  exact filterMessage_len t B

/-- C8: a collaborator error is caught and surfaced as the empty reply,
and an empty or whitespace-only reply skips speech synthesis entirely;
when synthesis is invoked the text is non-empty and has already been
truncated to at most 360 characters; the cycle is a total function of
the collaborator outcome, so no error propagates to the chat handler. -/
theorem orchestrator_skip_empty (api : Except String String) :
    (∀ e, api = Except.error e →
      generate_twitch_channel_talk api = ""
      ∧ generate_and_send_response api = CycleOutcome.skippedEmpty)
    ∧ (∀ s, api = Except.ok s → stripPy s = "" →
      generate_and_send_response api = CycleOutcome.skippedEmpty)
    ∧ (∀ r, generate_and_send_response api = CycleOutcome.spoken r →
      r ≠ "" ∧ r.length ≤ 360) := by
  refine ⟨?_, ?_, ?_⟩
  · rintro e rfl
    exact ⟨rfl, rfl⟩
  · rintro s rfl h
    have hd : stripL s.data = [] := congrArg String.data h
    unfold generate_and_send_response generate_twitch_channel_talk
    simp [hd]
  · intro r h
    unfold generate_and_send_response at h
    by_cases ht : generate_twitch_channel_talk api = ""
    · rw [if_pos ht] at h
      exact absurd h (by simp)
    · rw [if_neg ht] at h
      have hr : r = generate_twitch_channel_talk api :=
        (CycleOutcome.spoken.inj h).symm
      subst hr
      refine ⟨ht, ?_⟩
      cases api with
      | error e => exact absurd rfl ht
      | ok s =>
        show ((stripL s.data).take 360).length ≤ 360
        rw [List.length_take]
        exact Nat.min_le_left _ _

/-- Witness for `orchestrator_skip_empty`. -/
theorem orchestrator_skip_empty_w :
    generate_and_send_response (Except.error "boom") = CycleOutcome.skippedEmpty
    ∧ generate_and_send_response (Except.ok "   ") = CycleOutcome.skippedEmpty :=
  ⟨((orchestrator_skip_empty (Except.error "boom")).1 "boom" rfl).2,
    (orchestrator_skip_empty (Except.ok "   ")).2.1 "   " rfl (by decide)⟩

/-- C9 counterexample: the two drafts do NOT implement the same cheer
extraction — App.py's `CHEER_PATTERN` ends in `Shamrock\d` (one digit)
where TwitchOpenAIElevenLabsLink.py has `Shamrock\d+`, so on
`"Shamrock50"` App.py yields `(5, "0")` while the other draft yields
`(50, "")`. -/
theorem drafts_extract_differ_cex :
    extractApp "Shamrock50" ≠ extractLink "Shamrock50" := by decide

/-- C9 amended: the two drafts' cheer extractions agree on every
message text in which no (case-insensitive) occurrence of `Shamrock`
is immediately followed by two or more digits — the only shape on
which `Shamrock\d` and `Shamrock\d+` differ. -/
theorem drafts_extract_agree (t : String) (h : okSham t.data = true) :
    extractApp t = extractLink t := by
  have hall : ∀ i, matchVocab vocabApp (t.data.drop i)
      = matchVocab vocabLink (t.data.drop i) :=
    fun i => appLink_matchLen_eq (okSham_all h i)
  unfold extractApp extractLink extractOf findallOf subOf
  rw [findF_congr t.data.length t.data hall]
  rw [scanF_congr t.data.length t.data hall]

/-- Witness for `drafts_extract_agree`. -/
theorem drafts_extract_agree_w :
    okSham ("cheer100 Kappa50" : String).data = true
    ∧ extractApp "cheer100 Kappa50" = extractLink "cheer100 Kappa50" :=
  ⟨by decide, drafts_extract_agree "cheer100 Kappa50" (by decide)⟩

/-- C10: the sanitizer's residual cheer removal rewrites exactly the
spans `cheer` + digits + at-least-one whitespace (whitespace consumed:
`"hello cheer100 world"` becomes `"hello world"` with a single space);
any text with no such span — a bare trailing `"cheer100"`, a
`"cheer100,"` followed by punctuation, or a `"Kappa50"` token, which
the sanitizer never touches — is left unchanged. -/
theorem cheer_removal_shape :
    (∀ s : String, noCheerTok s.data = true → cheerSub s = s)
    ∧ cheerSub "hello cheer100 world" = "hello world"
    ∧ cheerSub "hello cheer100" = "hello cheer100"
    ∧ cheerSub "cheer100, hi" = "cheer100, hi"
    ∧ cheerSub "Kappa50 hi" = "Kappa50 hi" := by
  refine ⟨?_, by decide, by decide, by decide, by decide⟩
  intro s h
  cases s with
  | mk d =>
    show (⟨cheerSubL d⟩ : String) = ⟨d⟩
    have hd : cheerSubL d = d := by
      unfold cheerSubL
      exact scanF_of_none d.length d (Nat.le_refl _) (noCheerTok_all h)
    rw [hd]

/-- Witness for `cheer_removal_shape`. -/
theorem cheer_removal_shape_w :
    noCheerTok ("hi there" : String).data = true
    ∧ cheerSub "hi there" = "hi there" :=
  ⟨by decide, cheer_removal_shape.1 "hi there" (by decide)⟩
